import Mathlib

/-!
Verification development for the tlol-agent metadata extraction pipeline
(`src/metadata/optim_isal.py` and its relatives `src/isal.py`, `src/new_isal.py`).

Byte strings are modelled as `List Nat` (each entry one byte value).  Python
floating-point values are modelled as exact rationals (`ℚ`); every concrete
value exercised below is exactly representable, and all comparisons used by
the code (`>` against a running maximum) are order-faithful under this model.
-/

set_option maxRecDepth 4000

-- Batteries marks the arithmetic on `Rat` irreducible; re-enable unfolding so
-- that concrete runs of the pipeline can be evaluated by `decide`.
attribute [local semireducible] Rat.mul Rat.add Rat.sub Rat.inv

/-- Bytes of an ASCII string (every string used by the pipeline's patterns and
in the scenarios below is ASCII). -/
def asciiBytes (s : String) : List Nat := s.toList.map Char.toNat

/-- ASCII whitespace, as stripped by Python's `bytes.strip()`. -/
def isPyWs (b : Nat) : Bool := b == 32 || b == 9 || b == 10 || b == 13 || b == 11 || b == 12

/-- Python `bytes.strip()`: drop leading and trailing ASCII whitespace. -/
def pyStrip (l : List Nat) : List Nat :=
  ((l.dropWhile isPyWs).reverse.dropWhile isPyWs).reverse

/-- ASCII digit byte. -/
def isDigitB (b : Nat) : Bool := 48 ≤ b && b ≤ 57

/-- A byte accepted while collecting a numeric run: digit or decimal point
(`c in b'0123456789.'`). -/
def isNumB (b : Nat) : Bool := isDigitB b || b == 46

-- Byte patterns from `optim_isal.py` (module constants P_DEATH .. P_NET_ID).
def P_DEATH : List Nat := asciiBytes "\"HeroDie\""
def P_SPELL : List Nat := asciiBytes "\"CastSpellAns\""
def P_ATTACK : List Nat := asciiBytes "\"BasicAttackPos\""
def P_DAMAGE : List Nat := asciiBytes "\"UnitApplyDamage\""
def P_ITEM : List Nat := asciiBytes "\"BuyItem\""
def P_CHAMP_PRE : List Nat := asciiBytes "\"champion\":\""
def P_TIME : List Nat := asciiBytes "\"time\":"
def P_CREATE_HERO : List Nat := asciiBytes "\"CreateHero\""
def P_NET_ID : List Nat := asciiBytes "\"net_id\":"

/-- Fuel-driven worker for Python `bytes.split(sep)` (non-overlapping,
left-to-right).  The fuel is always at least the length of the remaining
input, so the `0, h :: t` fallback is never reached from `splitOnSeq`. -/
def splitOnSeqF (sep : List Nat) : Nat → List Nat → List (List Nat)
  | _, [] => [[]]
  | 0, h :: t => [h :: t]
  | fuel + 1, h :: t =>
    if sep ≠ [] ∧ sep.isPrefixOf (h :: t) then
      [] :: splitOnSeqF sep fuel ((h :: t).drop sep.length)
    else
      match splitOnSeqF sep fuel t with
      | [] => [[h]]
      | p :: ps => (h :: p) :: ps

/-- Python `data.split(sep)` for a non-empty separator. -/
def splitOnSeq (sep hay : List Nat) : List (List Nat) := splitOnSeqF sep hay.length hay

/-- Prepend a byte to the first piece of a split (helper describing how
`splitOnSeq` treats a non-separator head byte). -/
def consHead (x : Nat) : List (List Nat) → List (List Nat)
  | [] => [[x]]
  | p :: ps => (x :: p) :: ps

/-- Prepend a byte string to the first piece of a split. -/
def consFirst (x : List Nat) : List (List Nat) → List (List Nat)
  | [] => [x]
  | p :: ps => (x ++ p) :: ps

/-- Python `sep.join(pieces)` for a single-byte separator. -/
def joinSep (c : Nat) : List (List Nat) → List Nat
  | [] => []
  | [p] => p
  | p :: q :: ps => p ++ c :: joinSep c (q :: ps)

/-- Fuel-driven worker for Python `bytes.count(needle)` (non-overlapping,
left-to-right).  As with `splitOnSeqF` the fuel never runs out when started
from `countOcc`. -/
def countOccF (n : List Nat) : Nat → List Nat → Nat
  | _, [] => 0
  | 0, _ :: _ => 0
  | fuel + 1, h :: t =>
    if n ≠ [] ∧ n.isPrefixOf (h :: t) then
      1 + countOccF n fuel ((h :: t).drop n.length)
    else
      countOccF n fuel t

/-- Python `hay.count(n)` for a non-empty needle: number of non-overlapping
occurrences, scanned left to right. -/
def countOcc (n hay : List Nat) : Nat := countOccF n hay.length hay

/-- All positions at which `n` occurs in `hay` (substring occurrences, in
increasing order). -/
def occPositions (n hay : List Nat) : List Nat :=
  (List.range (hay.length + 1)).filter (fun i => n.isPrefixOf (hay.drop i))

/-- Python `n in hay` (substring containment test). -/
def containsSeq (n hay : List Nat) : Bool :=
  (List.range (hay.length + 1)).any (fun i => n.isPrefixOf (hay.drop i))

/-- Python `hay.find(n)`: position of the first occurrence, `none` for -1. -/
def findSeq (n hay : List Nat) : Option Nat := (occPositions n hay).head?

/-- Python `hay.rfind(n)`: position of the last occurrence, `none` for -1. -/
def rfindSeq (n hay : List Nat) : Option Nat := (occPositions n hay).getLast?

example : splitOnSeq (asciiBytes "X") (asciiBytes "abXcdX") =
    [asciiBytes "ab", asciiBytes "cd", []] := by decide
example : splitOnSeq (asciiBytes "aa") (asciiBytes "aaa") = [[], asciiBytes "a"] := by decide
example : countOcc (asciiBytes "aa") (asciiBytes "aaaa") = 2 := by decide
example : rfindSeq (asciiBytes "ab") (asciiBytes "abxab") = some 3 := by decide
example : pyStrip (asciiBytes "  a b  ") = asciiBytes "a b" := by decide

/-- The digit-collecting loop of `extract_float_after` (lines 55-61 of
`optim_isal.py`): bytes outside `0123456789.` are skipped while nothing has
been collected yet, and end the scan once the run has started. -/
def extractLoop : List Nat → List Nat → List Nat
  | [], acc => acc
  | c :: rest, acc =>
    if isNumB c then extractLoop rest (acc ++ [c])
    else if acc ≠ [] then acc
    else extractLoop rest acc

/-- Value of a digit string (most significant first). -/
def natOfDigits (l : List Nat) : Nat := l.foldl (fun a b => 10 * a + (b - 48)) 0

/-- Value of a collected numeric run (digits with at most one decimal point),
as an exact rational. -/
def ratOfRun (s : List Nat) : ℚ :=
  match splitOnSeq [46] s with
  | [ip] => (natOfDigits ip : ℚ)
  | [ip, fp] => (natOfDigits ip : ℚ) + (natOfDigits fp : ℚ) / (10 : ℚ) ^ fp.length
  | _ => 0

/-- Python `float(run)` restricted to runs over `0123456789.` (the only
inputs the pipeline ever passes): succeeds iff the run has at most one
decimal point and at least one digit; the value is modelled exactly. -/
def parseFloatRun (s : List Nat) : Option ℚ :=
  if s.all isNumB ∧ s.count 46 ≤ 1 ∧ s.any isDigitB then some (ratOfRun s) else none

/-- `extract_float_after(data, start_pos, max_len)` from `optim_isal.py`
(lines 52-67): scan at most `maxLen` bytes from `startPos`, collect a run of
digits/decimal points, parse it; `none` when nothing was collected or the
parse fails. -/
def extract_float_after (data : List Nat) (startPos maxLen : Nat) : Option ℚ :=
  let w := (data.drop startPos).take maxLen
  let numBytes := extractLoop w []
  if numBytes ≠ [] then parseFloatRun numBytes else none

/-- Round-half-to-even to an integer (the tie-breaking rule of Python's
`round`); exact-rational model. -/
def roundHalfEven (x : ℚ) : ℤ :=
  let f := ⌊x⌋
  let r := x - (f : ℚ)
  if r < 1 / 2 then f
  else if 1 / 2 < r then f + 1
  else if f % 2 = 0 then f else f + 1

/-- Python `round(x, n)`, modelled exactly on rationals. -/
def qround (x : ℚ) (n : Nat) : ℚ :=
  (roundHalfEven (x * (10 : ℚ) ^ n) : ℚ) / (10 : ℚ) ^ n

/-- UTF-8 continuation byte. -/
def isContB (b : Nat) : Bool := 128 ≤ b && b ≤ 191

/-- UTF-8 validity (RFC 3629: correct continuation bytes, no overlong forms,
no surrogates, at most U+10FFFF).  Python's `bytes.decode('utf-8')` succeeds
exactly on valid byte strings; since UTF-8 decoding is injective, decoded
strings are modelled by the valid byte strings themselves. -/
def validUtf8 : List Nat → Bool
  | [] => true
  | b :: rest =>
    if b ≤ 127 then validUtf8 rest
    else
      match rest with
      | [] => false
      | c :: rest2 =>
        if 194 ≤ b && b ≤ 223 then isContB c && validUtf8 rest2
        else
          match rest2 with
          | [] => false
          | d :: rest3 =>
            if b == 224 then (160 ≤ c && c ≤ 191) && isContB d && validUtf8 rest3
            else if 225 ≤ b && b ≤ 236 then isContB c && isContB d && validUtf8 rest3
            else if b == 237 then (128 ≤ c && c ≤ 159) && isContB d && validUtf8 rest3
            else if 238 ≤ b && b ≤ 239 then isContB c && isContB d && validUtf8 rest3
            else
              match rest3 with
              | [] => false
              | e :: rest4 =>
                if b == 240 then (144 ≤ c && c ≤ 191) && isContB d && isContB e && validUtf8 rest4
                else if 241 ≤ b && b ≤ 243 then isContB c && isContB d && isContB e && validUtf8 rest4
                else if b == 244 then (128 ≤ c && c ≤ 143) && isContB d && isContB e && validUtf8 rest4
                else false

/-- Python `bs.decode('utf-8')` as an option (identity on valid byte
strings). -/
def utf8DecodeOpt (l : List Nat) : Option (List Nat) :=
  if validUtf8 l then some l else none

/-- Per-record mutable aggregate of `optim_isal.py` (`new_game_stats`,
lines 44-50).  The champion set is modelled as a duplicate-free list in
insertion order (Python `set` semantics: membership only, serialized sorted
at finalize); the `net_id -> champion` dict as an association list with
insert-or-overwrite update. -/
structure GameStats where
  deaths : Nat
  spells : Nat
  attacks : Nat
  damage : Nat
  items : Nat
  champs : List (List Nat)
  size_bytes : Nat
  max_time : ℚ
  hero_net_ids : List (List Nat × List Nat)
deriving DecidableEq

/-- `new_game_stats()`: all counters zero, empty set/dict, zero max time. -/
def new_game_stats : GameStats :=
  { deaths := 0, spells := 0, attacks := 0, damage := 0, items := 0
    champs := [], size_bytes := 0, max_time := 0, hero_net_ids := [] }

/-- Python `set.add`: no-op when already present. -/
def setAdd (s : List (List Nat)) (x : List Nat) : List (List Nat) :=
  if x ∈ s then s else s ++ [x]

/-- Processing of one piece after a `"champion":"` marker (lines 81-87 of
`optim_isal.py`): find the closing quote, keep the name only when
`0 < end < 30` and it decodes as UTF-8. -/
def champPartUpdate (champs : List (List Nat)) (p : List Nat) : List (List Nat) :=
  match p.findIdx? (fun b => b == 34) with
  | none => champs
  | some e =>
    if 0 < e ∧ e < 30 then
      match utf8DecodeOpt (p.take e) with
      | some name => setAdd champs name
      | none => champs
    else champs

/-- Champion-name extraction over a whole record (lines 79-87): split on the
champion marker and process every following piece. -/
def champScan (chunk : List Nat) (champs : List (List Nat)) : List (List Nat) :=
  if containsSeq P_CHAMP_PRE chunk then
    ((splitOnSeq P_CHAMP_PRE chunk).drop 1).foldl champPartUpdate champs
  else champs

/-- The running-max-time update of `process_game_chunk` (lines 89-94): take
the LAST occurrence of `"time":` (via `rfind`), extract a float after it, and
update when the value is truthy (non-zero) and larger than the current
maximum. -/
def updateMaxTimeOpt (chunk : List Nat) (cur : ℚ) : ℚ :=
  match rfindSeq P_TIME chunk with
  | none => cur
  | some pos =>
    match extract_float_after chunk (pos + P_TIME.length) 20 with
    | none => cur
    | some t => if t ≠ 0 ∧ cur < t then t else cur

/-- Byte allowed in the `net_id` digit run (`in b'0123456789 '`). -/
def isNidB (b : Nat) : Bool := isDigitB b || b == 32

/-- Python `dict[k] = v`: overwrite in place when the key exists, append
otherwise. -/
def assocUpsert (m : List (List Nat × List Nat)) (k v : List Nat) :
    List (List Nat × List Nat) :=
  if m.any (fun kv => kv.1 == k) then
    m.map (fun kv => if kv.1 == k then (k, v) else kv)
  else m ++ [(k, v)]

/-- Processing of one piece after a `"CreateHero"` marker (lines 99-124 of
`optim_isal.py`): within a 500-byte window find `"net_id":`, collect its
digit/space run and strip it (these bytes always decode, so the `except:
continue` branch is unreachable), then find the champion marker and its
closing quote; record `net_id -> champion` when the name decodes. -/
def heroPartUpdate (m : List (List Nat × List Nat)) (part : List Nat) :
    List (List Nat × List Nat) :=
  let window := part.take 500
  match findSeq P_NET_ID window with
  | none => m
  | some nidPos =>
    let nidRun := (window.drop (nidPos + P_NET_ID.length)).takeWhile isNidB
    let netId := pyStrip nidRun
    match findSeq P_CHAMP_PRE window with
    | none => m
    | some champPos =>
      let champStart := champPos + P_CHAMP_PRE.length
      match (window.drop champStart).findIdx? (fun b => b == 34) with
      | none => m
      | some k =>
        match utf8DecodeOpt ((window.drop champStart).take k) with
        | some champ => assocUpsert m netId champ
        | none => m

/-- `CreateHero` extraction over a whole record (lines 97-124). -/
def heroScan (chunk : List Nat) (m : List (List Nat × List Nat)) :
    List (List Nat × List Nat) :=
  if containsSeq P_CREATE_HERO chunk then
    ((splitOnSeq P_CREATE_HERO chunk).drop 1).foldl heroPartUpdate m
  else m

/-- `process_game_chunk(chunk, stats)` (lines 69-124 of `optim_isal.py`),
as a pure state transformer. -/
def process_game_chunk (chunk : List Nat) (s : GameStats) : GameStats :=
  { s with
    size_bytes := s.size_bytes + chunk.length
    deaths := s.deaths + countOcc P_DEATH chunk
    spells := s.spells + countOcc P_SPELL chunk
    attacks := s.attacks + countOcc P_ATTACK chunk
    damage := s.damage + countOcc P_DAMAGE chunk
    items := s.items + countOcc P_ITEM chunk
    champs := champScan chunk s.champs
    max_time := updateMaxTimeOpt chunk s.max_time
    hero_net_ids := heroScan chunk s.hero_net_ids }

/-- Lexicographic `≤` on byte strings; agrees with Python string comparison
(UTF-8 byte order coincides with code-point order). -/
def lexLeB : List Nat → List Nat → Bool
  | [], _ => true
  | _ :: _, [] => false
  | a :: as, b :: bs => if a < b then true else if b < a then false else lexLeB as bs

/-- Insertion step of an insertion sort by `lexLeB`. -/
def insertLex (x : List Nat) : List (List Nat) → List (List Nat)
  | [] => [x]
  | y :: ys => if lexLeB x y then x :: y :: ys else y :: insertLex x ys

/-- Python `sorted` on a collection of strings. -/
def sortLex (l : List (List Nat)) : List (List Nat) := l.foldr insertLex []

/-- Insertion step of an insertion sort of key/value pairs by key. -/
def insertLexP (x : List Nat × List Nat) :
    List (List Nat × List Nat) → List (List Nat × List Nat)
  | [] => [x]
  | y :: ys => if lexLeB x.1 y.1 then x :: y :: ys else y :: insertLexP x ys

/-- Python `sorted(dict.items())` (keys are distinct, so key order decides). -/
def sortPairs (l : List (List Nat × List Nat)) : List (List Nat × List Nat) :=
  l.foldr insertLexP []

/-- One output row (`finalize_stats`'s result dict, lines 126-147). -/
structure OutputRow where
  file : List Nat
  game_idx : Nat
  patch : List Nat
  size_mb : ℚ
  duration_sec : ℚ
  duration_min : ℚ
  deaths : Nat
  spells : Nat
  attacks : Nat
  damage : Nat
  items : Nat
  n_champs : Nat
  champs : List Nat
  hero_net_ids : List Nat
  n_heroes : Nat
deriving DecidableEq

/-- `finalize_stats(stats, filename, patch, game_idx)` (lines 126-147):
pure projection of the accumulated stats into one row; champion set joined
sorted with `|`, hero mapping as sorted `id:name` pairs. -/
def finalize_stats (s : GameStats) (filename patch : List Nat) (game_idx : Nat) :
    OutputRow :=
  { file := filename
    game_idx := game_idx
    patch := patch
    size_mb := qround ((s.size_bytes : ℚ) / (1024 * 1024)) 2
    duration_sec := qround s.max_time 1
    duration_min := qround (s.max_time / 60) 2
    deaths := s.deaths
    spells := s.spells
    attacks := s.attacks
    damage := s.damage
    items := s.items
    n_champs := s.champs.length
    champs := joinSep 124 (sortLex s.champs)
    hero_net_ids := joinSep 124 ((sortPairs s.hero_net_ids).map (fun kv => kv.1 ++ 58 :: kv.2))
    n_heroes := s.hero_net_ids.length }

/-- One feed step of the record segmenter (lines 172-175 of `optim_isal.py`):
prepend the carry buffer to the chunk, split on newlines; all pieces but the
last are complete records, the last piece becomes the new carry buffer. -/
def feedStep (buffer chunk : List Nat) : List (List Nat) × List Nat :=
  let lines := splitOnSeq [10] (buffer ++ chunk)
  (lines.dropLast, lines.getLastD [])

/-- Complete lines emitted by the read loop over a list of chunks (the loop
of lines 167-183; reading stops at the first empty chunk, mirroring the
`if not chunk: break`). -/
def segRunEmit (buffer : List Nat) : List (List Nat) → List (List Nat)
  | [] => []
  | c :: cs =>
    if c = [] then []
    else (feedStep buffer c).1 ++ segRunEmit (feedStep buffer c).2 cs

/-- Carry buffer left after the read loop over a list of chunks. -/
def segRunBuf (buffer : List Nat) : List (List Nat) → List Nat
  | [] => buffer
  | c :: cs => if c = [] then buffer else segRunBuf (feedStep buffer c).2 cs

/-- The Records the segmentation loop emits for a chunk sequence: every
complete line, then the final carry buffer when it is not whitespace-only
(lines 185-187). -/
def emittedRecords (cs : List (List Nat)) : List (List Nat) :=
  segRunEmit [] cs ++
    (if pyStrip (segRunBuf [] cs) = [] then [] else [segRunBuf [] cs])

/-- The Records actually processed into output rows: whitespace-only lines
are skipped (lines 178-179). -/
def processedRecords (cs : List (List Nat)) : List (List Nat) :=
  (emittedRecords cs).filter (fun l => !(pyStrip l).isEmpty)

/-- The original stream with a whitespace-only trailing fragment (the part
after the last newline) removed together with its preceding newline;
identity when the trailing fragment contains non-whitespace. -/
def trimTrailWs (s : List Nat) : List Nat :=
  if pyStrip ((splitOnSeq [10] s).getLastD []) = [] then
    joinSep 10 (splitOnSeq [10] s).dropLast
  else s

/-- Path with backslashes replaced by slashes
(`file_path.replace("\\", "/")`). -/
def normSlashes (path : List Nat) : List Nat :=
  path.map (fun b => if b == 92 then 47 else b)

/-- Path segments (`.split("/")` after normalization). -/
def pathSegs (path : List Nat) : List (List Nat) := splitOnSeq [47] (normSlashes path)

/-- `p.startswith(("12_", "13_", "14_"))` (line 155 of `optim_isal.py`). -/
def isPatchPre (p : List Nat) : Bool :=
  (asciiBytes "12_").isPrefixOf p || (asciiBytes "13_").isPrefixOf p ||
    (asciiBytes "14_").isPrefixOf p

/-- The `for p in parts: if p.startswith(...): patch = p; break` loop
(lines 152-157), with `"unknown"` as the default. -/
def patchLoop : List (List Nat) → List Nat
  | [] => asciiBytes "unknown"
  | p :: ps => if isPatchPre p then p else patchLoop ps

/-- Patch label derived from a file path. -/
def patchOf (path : List Nat) : List Nat := patchLoop (pathSegs path)

/-- `os.path.basename`, modelled as the final path segment. -/
def basenameOf (path : List Nat) : List Nat := (pathSegs path).getLastD []

/-- One event delivered by the chunk source: either a chunk of decompressed
bytes, or a decompression/I-O failure raised mid-read. -/
inductive ReadEv
  | chunk (bs : List Nat)
  | ioError (msg : List Nat)
deriving DecidableEq

/-- The error string `f"Error {filename}: {e}"` built at line 190. -/
def errFmt (filename msg : List Nat) : List Nat :=
  asciiBytes "Error " ++ filename ++ asciiBytes ": " ++ msg

/-- Processing of one complete line (lines 177-183): whitespace-only lines
are skipped; otherwise the line is observed into a fresh `GameStats`,
finalized, appended, and the per-file record index advances.  (In the source
`current_stats` is always freshly reset when a line is processed.) -/
def processLine (filename patch : List Nat) (st : Nat × List OutputRow)
    (line : List Nat) : Nat × List OutputRow :=
  if pyStrip line = [] then st
  else
    (st.1 + 1,
      st.2 ++ [finalize_stats (process_game_chunk line new_game_stats) filename patch st.1])

/-- The read loop of `process_file_per_game` (lines 165-192) over a list of
read events.  An empty chunk ends the loop, after which a non-whitespace
carry buffer is processed as a final record; an I/O error aborts the file,
discarding the accumulated rows and returning the formatted error. -/
def processReads (filename patch : List Nat) (gi : Nat) (buffer : List Nat)
    (rows : List OutputRow) :
    List ReadEv → Option (List OutputRow) × Option (List Nat)
  | [] =>
    if pyStrip buffer = [] then (some rows, none)
    else
      (some (rows ++
        [finalize_stats (process_game_chunk buffer new_game_stats) filename patch gi]),
        none)
  | ReadEv.chunk [] :: _ =>
    if pyStrip buffer = [] then (some rows, none)
    else
      (some (rows ++
        [finalize_stats (process_game_chunk buffer new_game_stats) filename patch gi]),
        none)
  | ReadEv.chunk (b :: bs) :: rest =>
    let st := feedStep buffer (b :: bs)
    let out := st.1.foldl (processLine filename patch) (gi, rows)
    processReads filename patch out.1 st.2 out.2 rest
  | ReadEv.ioError msg :: _ => (none, some (errFmt filename msg))

/-- `process_file_per_game(file_path)` (lines 149-192), with the gzip stream
abstracted as a list of read events. -/
def process_file_per_game (path : List Nat) (reads : List ReadEv) :
    Option (List OutputRow) × Option (List Nat) :=
  processReads (basenameOf path) (patchOf path) 0 [] [] reads

/-- The input record of the spec's first scenario (section 8): one
`CreateHero` event (net_id 1073741824, champion Ahri) and one `HeroDie`
event at time 125.5. -/
def c4record : List Nat :=
  asciiBytes "\x7b\"events\":[\x7b\"CreateHero\":\x7b\"net_id\":1073741824,\"champion\":\"Ahri\"\x7d\x7d,\x7b\"HeroDie\":\x7b\"time\":125.5\x7d\x7d]\x7d"

/-- The row produced for that record by a fresh `GameStats` observation
followed by finalization. -/
def c4row : OutputRow :=
  finalize_stats (process_game_chunk c4record new_game_stats)
    (asciiBytes "f.jsonl.gz") (asciiBytes "unknown") 0

/-- C4: observing the scenario record into a fresh GameStats and finalizing
produces an OutputRow with deaths=1, n_champs=1, champs="Ahri",
hero_net_ids="1073741824:Ahri", and duration_sec=125.5. -/
theorem c4_scenario_row :
    c4row.deaths = 1 ∧ c4row.n_champs = 1 ∧
    c4row.champs = asciiBytes "Ahri" ∧
    c4row.hero_net_ids = asciiBytes "1073741824:Ahri" ∧
    c4row.duration_sec = 251 / 2 := by
  refine ⟨by decide, by decide, by decide, by decide, by decide⟩

theorem splitOnSeqF_ne_nil (sep : List Nat) :
    ∀ fuel h, splitOnSeqF sep fuel h ≠ [] := by
  intro fuel
  induction fuel with
  | zero => intro h; cases h <;> simp [splitOnSeqF]
  | succ n ih =>
    intro h
    cases h with
    | nil => simp [splitOnSeqF]
    | cons x t =>
      simp only [splitOnSeqF]
      split
      · simp
      · split <;> simp_all

theorem splitOnSeq_ne_nil (sep h : List Nat) : splitOnSeq sep h ≠ [] :=
  splitOnSeqF_ne_nil sep h.length h

theorem splitOnSeq_single_cons (c x : Nat) (t : List Nat) :
    splitOnSeq [c] (x :: t) =
      if x = c then [] :: splitOnSeq [c] t else consHead x (splitOnSeq [c] t) := by
  show splitOnSeqF [c] (t.length + 1) (x :: t) = _
  simp only [splitOnSeqF, List.isPrefixOf, Bool.and_true, List.drop_succ_cons,
    List.drop_zero, ne_eq, reduceCtorEq, not_false_eq_true, true_and]
  by_cases h : x = c
  · subst h; simp [splitOnSeq]
  · have hbeq : (c == x) = false := by
      simp [beq_iff_eq]; exact fun hcx => h hcx.symm
    rw [if_neg, if_neg h]
    · show (match splitOnSeqF [c] t.length t with
        | [] => [[x]]
        | p :: ps => (x :: p) :: ps) = consHead x (splitOnSeq [c] t)
      show (match splitOnSeq [c] t with
        | [] => [[x]]
        | p :: ps => (x :: p) :: ps) = consHead x (splitOnSeq [c] t)
      cases splitOnSeq [c] t <;> rfl
    · simp [hbeq]

theorem mem_splitOnSeq_single (c : Nat) :
    ∀ h p, p ∈ splitOnSeq [c] h → c ∉ p := by
  intro h
  induction h with
  | nil => intro p hp; simp [splitOnSeq, splitOnSeqF] at hp; simp [hp]
  | cons x t ih =>
    intro p hp
    rw [splitOnSeq_single_cons] at hp
    by_cases hxc : x = c
    · rw [if_pos hxc] at hp
      rcases List.mem_cons.mp hp with h1 | h2
      · subst h1; simp
      · exact ih p h2
    · rw [if_neg hxc] at hp
      rcases hS : splitOnSeq [c] t with _ | ⟨q, qs⟩
      · exact absurd hS (splitOnSeq_ne_nil [c] t)
      · rw [hS] at hp
        simp only [consHead] at hp
        rcases List.mem_cons.mp hp with h1 | h2
        · subst h1
          intro hmem
          rcases List.mem_cons.mp hmem with h3 | h4
          · exact hxc h3.symm
          · exact ih q (hS ▸ List.mem_cons_self q qs) h4
        · exact ih p (hS ▸ List.mem_cons_of_mem q h2)

theorem joinSep_splitOnSeq_single (c : Nat) :
    ∀ h, joinSep c (splitOnSeq [c] h) = h := by
  intro h
  induction h with
  | nil => rfl
  | cons x t ih =>
    rw [splitOnSeq_single_cons]
    by_cases hxc : x = c
    · rw [if_pos hxc]
      rcases hS : splitOnSeq [c] t with _ | ⟨q, qs⟩
      · exact absurd hS (splitOnSeq_ne_nil [c] t)
      · rw [hS] at ih
        show joinSep c ([] :: q :: qs) = x :: t
        simp only [joinSep, List.nil_append]
        rw [ih, hxc]
    · rw [if_neg hxc]
      rcases hS : splitOnSeq [c] t with _ | ⟨q, qs⟩
      · exact absurd hS (splitOnSeq_ne_nil [c] t)
      · rw [hS] at ih
        show joinSep c ((x :: q) :: qs) = x :: t
        cases qs with
        | nil => simp only [joinSep] at ih ⊢; rw [ih]
        | cons r rs =>
          simp only [joinSep, List.cons_append] at ih ⊢
          rw [ih]

theorem splitOnSeq_no_sep (c : Nat) :
    ∀ a, c ∉ a → splitOnSeq [c] a = [a] := by
  intro a
  induction a with
  | nil => intro; rfl
  | cons x t ih =>
    intro hc
    rw [splitOnSeq_single_cons]
    have hxc : ¬ x = c := fun hh => hc (by rw [hh]; exact List.mem_cons_self c t)
    rw [if_neg hxc, ih (fun hh => hc (List.mem_cons_of_mem x hh))]
    rfl

theorem splitOnSeq_prepend (c : Nat) :
    ∀ a b, c ∉ a → splitOnSeq [c] (a ++ b) = consFirst a (splitOnSeq [c] b) := by
  intro a
  induction a with
  | nil =>
    intro b _
    rcases hS : splitOnSeq [c] b with _ | ⟨p, ps⟩
    · exact absurd hS (splitOnSeq_ne_nil [c] b)
    · simp [consFirst, hS]
  | cons x t ih =>
    intro b hc
    have hxc : ¬ x = c := fun hh => hc (by rw [hh]; exact List.mem_cons_self c t)
    rw [List.cons_append, splitOnSeq_single_cons, if_neg hxc,
      ih b (fun hh => hc (List.mem_cons_of_mem x hh))]
    rcases splitOnSeq [c] b with _ | ⟨p, ps⟩ <;> rfl

theorem splitOnSeq_append_single (c : Nat) :
    ∀ a b, splitOnSeq [c] (a ++ b) =
      (splitOnSeq [c] a).dropLast ++
        consFirst ((splitOnSeq [c] a).getLastD []) (splitOnSeq [c] b) := by
  intro a
  induction a with
  | nil =>
    intro b
    show splitOnSeq [c] b = ([[]] : List (List Nat)).dropLast ++
      consFirst (([[]] : List (List Nat)).getLastD []) (splitOnSeq [c] b)
    rcases hS : splitOnSeq [c] b with _ | ⟨p, ps⟩
    · exact absurd hS (splitOnSeq_ne_nil [c] b)
    · simp [consFirst, List.getLastD]
  | cons x t ih =>
    intro b
    rw [List.cons_append, splitOnSeq_single_cons, splitOnSeq_single_cons, ih b]
    rcases hS : splitOnSeq [c] t with _ | ⟨q, qs⟩
    · exact absurd hS (splitOnSeq_ne_nil [c] t)
    · by_cases hxc : x = c
      · rw [if_pos hxc, if_pos hxc]
        cases qs with
        | nil => rcases splitOnSeq [c] b with _ | ⟨p, ps⟩ <;>
            simp [List.dropLast, List.getLastD, consFirst]
        | cons r rs => simp [List.dropLast, List.getLastD]
      · rw [if_neg hxc, if_neg hxc]
        cases qs with
        | nil =>
          rcases splitOnSeq [c] b with _ | ⟨p, ps⟩ <;>
            simp [List.dropLast, List.getLastD, consFirst, consHead]
        | cons r rs =>
          simp [List.dropLast, List.getLastD, consFirst, consHead]

theorem getLastD_mem :
    ∀ (qs : List (List Nat)) (q d : List Nat), (q :: qs).getLastD d ∈ q :: qs := by
  intro qs
  induction qs with
  | nil => intro q d; simp [List.getLastD]
  | cons r rs ih =>
    intro q d
    rw [List.getLastD_cons]
    exact List.mem_cons_of_mem q (ih r q)

theorem getLastD_irrel (C : List (List Nat)) (hC : C ≠ []) (d d' : List Nat) :
    C.getLastD d = C.getLastD d' := by
  cases C with
  | nil => exact absurd rfl hC
  | cons q qs => rw [List.getLastD_cons, List.getLastD_cons]

theorem getLastD_append_right (A : List (List Nat)) :
    ∀ C : List (List Nat), C ≠ [] → ∀ d, (A ++ C).getLastD d = C.getLastD d := by
  induction A with
  | nil => intro C _ d; rfl
  | cons a as ih =>
    intro C hC d
    rw [List.cons_append, List.getLastD_cons, ih C hC a]
    exact getLastD_irrel C hC a d

theorem consFirst_ne_nil (x : List Nat) (S : List (List Nat)) : consFirst x S ≠ [] := by
  cases S <;> simp [consFirst]

/-- The new carry buffer produced by any feed step contains no newline byte:
it is one of the pieces of a split on the newline byte. -/
theorem feedStep_buf_no_newline (buffer chunk : List Nat) :
    10 ∉ (feedStep buffer chunk).2 := by
  show 10 ∉ (splitOnSeq [10] (buffer ++ chunk)).getLastD []
  rcases hS : splitOnSeq [10] (buffer ++ chunk) with _ | ⟨q, qs⟩
  · exact absurd hS (splitOnSeq_ne_nil _ _)
  · exact mem_splitOnSeq_single 10 (buffer ++ chunk) _ (hS ▸ getLastD_mem qs q [])

/-- Characterization of the read loop: over non-empty chunks and a
newline-free carry buffer, the emitted complete lines are exactly all pieces
but the last of splitting the whole remaining stream, and the final carry
buffer is the last piece. -/
theorem segRun_spec :
    ∀ (cs : List (List Nat)) (buffer : List Nat),
      (∀ ch ∈ cs, ch ≠ ([] : List Nat)) → 10 ∉ buffer →
      segRunEmit buffer cs = (splitOnSeq [10] (buffer ++ cs.flatten)).dropLast ∧
      segRunBuf buffer cs = (splitOnSeq [10] (buffer ++ cs.flatten)).getLastD [] := by
  intro cs
  induction cs with
  | nil =>
    intro buffer _ hb
    rw [List.flatten_nil, List.append_nil, splitOnSeq_no_sep 10 buffer hb]
    exact ⟨rfl, rfl⟩
  | cons ch cs ih =>
    intro buffer hne hb
    have hch : ch ≠ [] := hne ch (List.mem_cons_self ch cs)
    have hrest : ∀ c ∈ cs, c ≠ ([] : List Nat) :=
      fun c hc => hne c (List.mem_cons_of_mem ch hc)
    have hnb : 10 ∉ (feedStep buffer ch).2 := feedStep_buf_no_newline buffer ch
    obtain ⟨ih1, ih2⟩ := ih (feedStep buffer ch).2 hrest hnb
    have hsplit :
        splitOnSeq [10] (buffer ++ (ch :: cs).flatten) =
          (splitOnSeq [10] (buffer ++ ch)).dropLast ++
            consFirst ((feedStep buffer ch).2) (splitOnSeq [10] cs.flatten) := by
      rw [List.flatten_cons, ← List.append_assoc]
      exact splitOnSeq_append_single 10 (buffer ++ ch) cs.flatten
    have hpre :
        splitOnSeq [10] ((feedStep buffer ch).2 ++ cs.flatten) =
          consFirst ((feedStep buffer ch).2) (splitOnSeq [10] cs.flatten) :=
      splitOnSeq_prepend 10 _ cs.flatten hnb
    constructor
    · show (if ch = [] then [] else
        (feedStep buffer ch).1 ++ segRunEmit (feedStep buffer ch).2 cs) = _
      rw [if_neg hch, ih1, hsplit, hpre,
        List.dropLast_append_of_ne_nil _ (consFirst_ne_nil _ _)]
      rfl
    · show (if ch = [] then buffer else segRunBuf (feedStep buffer ch).2 cs) = _
      rw [if_neg hch, ih2, hsplit, hpre,
        getLastD_append_right _ _ (consFirst_ne_nil _ _)]

theorem dropLast_append_getLastD :
    ∀ (qs : List (List Nat)) (q d : List Nat),
      (q :: qs).dropLast ++ [(q :: qs).getLastD d] = q :: qs := by
  intro qs
  induction qs with
  | nil => intro q d; simp [List.getLastD]
  | cons r rs ih =>
    intro q d
    rw [List.getLastD_cons]
    show q :: ((r :: rs).dropLast ++ [(r :: rs).getLastD q]) = q :: r :: rs
    rw [ih r q]

/-- Helper: a newline-free carry buffer stays newline-free through the whole
read loop. -/
theorem segRunBuf_no_newline :
    ∀ (cs : List (List Nat)) (buffer : List Nat), 10 ∉ buffer →
      10 ∉ segRunBuf buffer cs := by
  intro cs
  induction cs with
  | nil => intro buffer hb; exact hb
  | cons ch cs ih =>
    intro buffer hb
    show 10 ∉ (if ch = [] then buffer else segRunBuf (feedStep buffer ch).2 cs)
    by_cases hch : ch = []
    · rw [if_pos hch]; exact hb
    · rw [if_neg hch]
      exact ih (feedStep buffer ch).2 (feedStep_buf_no_newline buffer ch)

/-- C8: the carry buffer never contains a newline byte — it is newline-free
at initialization, after every feed step (unconditionally), and after any
run of the read loop started from the empty buffer. -/
theorem c8_carry_newline_free :
    10 ∉ ([] : List Nat) ∧
    (∀ buffer chunk : List Nat, 10 ∉ (feedStep buffer chunk).2) ∧
    (∀ cs : List (List Nat), 10 ∉ segRunBuf [] cs) := by
  refine ⟨by simp, feedStep_buf_no_newline, fun cs => segRunBuf_no_newline cs [] (by simp)⟩

/-- C1: record segmentation is invariant under re-chunking — any two ways of
cutting the same byte stream into non-empty chunks make the loop emit the
same Record sequence (both before and after the whitespace-only skip), in
order, with no loss or duplication; and the emitted Records rejoined with
newlines give back the stream with a whitespace-only trailing fragment (and
its preceding newline) removed.  In particular chunk sizes 1 and 8 MiB
agree. -/
theorem c1_segmentation_rechunk (cs1 cs2 : List (List Nat))
    (h1 : ∀ c ∈ cs1, c ≠ ([] : List Nat)) (h2 : ∀ c ∈ cs2, c ≠ ([] : List Nat))
    (hcat : cs1.flatten = cs2.flatten) :
    emittedRecords cs1 = emittedRecords cs2 ∧
    processedRecords cs1 = processedRecords cs2 ∧
    joinSep 10 (emittedRecords cs1) = trimTrailWs cs1.flatten := by
  obtain ⟨e1, b1⟩ := segRun_spec cs1 [] h1 (by simp)
  obtain ⟨e2, b2⟩ := segRun_spec cs2 [] h2 (by simp)
  rw [List.nil_append] at e1 b1 e2 b2
  have hemit : emittedRecords cs1 = emittedRecords cs2 := by
    unfold emittedRecords
    rw [e1, e2, b1, b2, hcat]
  refine ⟨hemit, by unfold processedRecords; rw [hemit], ?_⟩
  unfold emittedRecords trimTrailWs
  rw [e1, b1]
  by_cases hws : pyStrip ((splitOnSeq [10] cs1.flatten).getLastD []) = []
  · rw [if_pos hws, if_pos hws, List.append_nil]
  · rw [if_neg hws, if_neg hws]
    rcases hS : splitOnSeq [10] cs1.flatten with _ | ⟨q, qs⟩
    · exact absurd hS (splitOnSeq_ne_nil _ _)
    · rw [dropLast_append_getLastD qs q [], ← hS, joinSep_splitOnSeq_single]

theorem countOccF_congr (n : List Nat) :
    ∀ f1 f2 hay, hay.length ≤ f1 → hay.length ≤ f2 →
      countOccF n f1 hay = countOccF n f2 hay := by
  intro f1
  induction f1 with
  | zero =>
    intro f2 hay h1 _
    have hnil : hay = [] := List.eq_nil_of_length_eq_zero (Nat.le_zero.mp h1)
    subst hnil
    cases f2 <;> rfl
  | succ m ih =>
    intro f2 hay h1 h2
    cases hay with
    | nil => cases f2 <;> rfl
    | cons x t =>
      cases f2 with
      | zero => exact absurd h2 (by simp)
      | succ g =>
        show countOccF n (m + 1) (x :: t) = countOccF n (g + 1) (x :: t)
        simp only [countOccF]
        split
        · rename_i hcond
          have hn : 1 ≤ n.length := by
            rcases hcond with ⟨hne, _⟩
            cases n with
            | nil => exact absurd rfl hne
            | cons a as => simp
          have hd : ((x :: t).drop n.length).length ≤ m := by
            rw [List.length_drop]
            simp only [List.length_cons] at h1 ⊢
            omega
          have hd2 : ((x :: t).drop n.length).length ≤ g := by
            rw [List.length_drop]
            simp only [List.length_cons] at h2 ⊢
            omega
          rw [ih g _ hd hd2]
        · have ht : t.length ≤ m := by
            simp only [List.length_cons] at h1; omega
          have ht2 : t.length ≤ g := by
            simp only [List.length_cons] at h2; omega
          exact ih g t ht ht2

theorem countOcc_cons (n : List Nat) (x : Nat) (t : List Nat) :
    countOcc n (x :: t) =
      if n ≠ [] ∧ n.isPrefixOf (x :: t) then
        1 + countOcc n ((x :: t).drop n.length)
      else countOcc n t := by
  show countOccF n (t.length + 1) (x :: t) = _
  simp only [countOccF]
  split
  · rename_i hcond
    have hn : 1 ≤ n.length := by
      rcases hcond with ⟨hne, _⟩
      cases n with
      | nil => exact absurd rfl hne
      | cons a as => simp
    congr 1
    refine countOccF_congr n t.length _ _ ?_ (le_refl _)
    rw [List.length_drop]
    simp only [List.length_cons]
    omega
  · rfl

/-- No occurrence of the needle straddles the boundary between `w1` and
`w2`: every occurrence starting inside `w1` ends inside `w1`. -/
def straddleFree (n w1 w2 : List Nat) : Prop :=
  ∀ i, i < w1.length → n.isPrefixOf ((w1 ++ w2).drop i) → i + n.length ≤ w1.length

instance straddleFreeDecidable (n w1 w2 : List Nat) :
    Decidable (straddleFree n w1 w2) := by
  unfold straddleFree
  infer_instance

theorem prefix_of_append_left {n w1 w2 : List Nat}
    (h : n <+: w1 ++ w2) (hle : n.length ≤ w1.length) : n <+: w1 := by
  rw [List.prefix_iff_eq_take] at h
  rw [List.take_append_of_le_length hle] at h
  rw [h]
  exact List.take_prefix _ _

theorem straddleFree_tail {n w2 : List Nat} {x : Nat} {t : List Nat}
    (h : straddleFree n (x :: t) w2) : straddleFree n t w2 := by
  intro i hi hp
  have h2 := h (i + 1) (by simpa using Nat.succ_lt_succ hi)
    (by simpa using hp)
  simp only [List.length_cons] at h2
  omega

theorem straddleFree_drop {n w1 w2 : List Nat}
    (h : straddleFree n w1 w2) (hle : n.length ≤ w1.length) :
    straddleFree n (w1.drop n.length) w2 := by
  intro i hi hp
  rw [List.length_drop] at hi ⊢
  have hdropeq : (w1.drop n.length ++ w2).drop i = (w1 ++ w2).drop (n.length + i) := by
    rw [← List.drop_drop, List.drop_append_of_le_length hle]
  have h2 := h (n.length + i) (by omega) (hdropeq ▸ hp)
  omega

theorem countOcc_append_aux (n : List Nat) (hn : n ≠ []) :
    ∀ k w1 w2, w1.length ≤ k → straddleFree n w1 w2 →
      countOcc n (w1 ++ w2) = countOcc n w1 + countOcc n w2 := by
  intro k
  induction k with
  | zero =>
    intro w1 w2 h1 _
    have hnil : w1 = [] := List.eq_nil_of_length_eq_zero (Nat.le_zero.mp h1)
    subst hnil
    simp [countOcc, countOccF]
  | succ m ih =>
    intro w1 w2 hlen hstr
    cases w1 with
    | nil => simp [countOcc, countOccF]
    | cons x t =>
      have hnlen : 1 ≤ n.length := by
        cases n with
        | nil => exact absurd rfl hn
        | cons a as => simp
      by_cases hpre : n.isPrefixOf (x :: (t ++ w2))
      · have h0 := hstr 0 (by simp) (by simpa using hpre)
        have hle : n.length ≤ (x :: t).length := by simpa using h0
        have hprew1 : n.isPrefixOf (x :: t) :=
          List.isPrefixOf_iff_prefix.mpr
            (prefix_of_append_left (List.isPrefixOf_iff_prefix.mp hpre) hle)
        show countOcc n (x :: (t ++ w2)) = countOcc n (x :: t) + countOcc n w2
        rw [countOcc_cons n x (t ++ w2), if_pos ⟨hn, hpre⟩,
          countOcc_cons n x t, if_pos ⟨hn, hprew1⟩]
        have hdropeq : (x :: (t ++ w2)).drop n.length =
            (x :: t).drop n.length ++ w2 := by
          show ((x :: t) ++ w2).drop n.length = _
          rw [List.drop_append_of_le_length hle]
        rw [hdropeq]
        have hdlen : ((x :: t).drop n.length).length ≤ m := by
          rw [List.length_drop]
          simp only [List.length_cons] at hlen ⊢
          omega
        rw [ih ((x :: t).drop n.length) w2 hdlen (straddleFree_drop hstr hle)]
        omega
      · have hprew1 : ¬ n.isPrefixOf (x :: t) := by
          intro hcontra
          exact hpre (List.isPrefixOf_iff_prefix.mpr
            ((List.isPrefixOf_iff_prefix.mp hcontra).trans (List.prefix_append _ _)))
        show countOcc n (x :: (t ++ w2)) = countOcc n (x :: t) + countOcc n w2
        rw [countOcc_cons n x (t ++ w2), if_neg (fun hc => hpre hc.2),
          countOcc_cons n x t, if_neg (fun hc => hprew1 hc.2)]
        have htlen : t.length ≤ m := by
          simp only [List.length_cons] at hlen
          omega
        exact ih t w2 htlen (straddleFree_tail hstr)

/-- C5 counterexample: with needle "ab", window pair ("a", "b"), the count on
the concatenation is 1 but the counts on the two windows are both 0 — the
claimed additivity fails for needles that straddle the boundary. -/
theorem c5_count_not_additive :
    ¬ (countOcc (asciiBytes "ab") (asciiBytes "a" ++ asciiBytes "b") =
       countOcc (asciiBytes "ab") (asciiBytes "a") +
         countOcc (asciiBytes "ab") (asciiBytes "b")) := by decide

/-- C5 amended: the non-overlapping occurrence count is additive over
concatenation for every non-empty needle and every pair of windows such that
no occurrence of the needle straddles the boundary (as is the case for the
event counters, which count within single newline-free records using
newline-free needles). -/
theorem c5_count_additive (n w1 w2 : List Nat) (hn : n ≠ [])
    (hstr : straddleFree n w1 w2) :
    countOcc n (w1 ++ w2) = countOcc n w1 + countOcc n w2 :=
  countOcc_append_aux n hn w1.length w1 w2 (le_refl _) hstr

/-- Witness for the amended C5 at a concrete pair of windows containing the
death-event marker. -/
theorem c5_count_additive_witness :
    countOcc P_DEATH (asciiBytes "x\"HeroDie\"y" ++ asciiBytes "\"HeroDie\"z") =
      countOcc P_DEATH (asciiBytes "x\"HeroDie\"y") +
        countOcc P_DEATH (asciiBytes "\"HeroDie\"z") :=
  c5_count_additive P_DEATH (asciiBytes "x\"HeroDie\"y") (asciiBytes "\"HeroDie\"z")
    (by decide) (by decide)

/-- Witness for C1 at a concrete stream "a\nb" cut into single-byte chunks
versus one whole chunk. -/
theorem c1_segmentation_rechunk_witness :
    emittedRecords [[97], [10], [98]] = emittedRecords [[97, 10, 98]] ∧
    processedRecords [[97], [10], [98]] = processedRecords [[97, 10, 98]] ∧
    joinSep 10 (emittedRecords [[97], [10], [98]]) =
      trimTrailWs ([[97], [10], [98]] : List (List Nat)).flatten :=
  c1_segmentation_rechunk [[97], [10], [98]] [[97, 10, 98]]
    (by decide) (by decide) (by decide)

theorem extractLoop_acc_ne_nil (w : List Nat) :
    ∀ acc, acc ≠ [] → extractLoop w acc = acc ++ w.takeWhile isNumB := by
  induction w with
  | nil => intro acc _; simp [extractLoop]
  | cons c rest ih =>
    intro acc hacc
    show (if isNumB c then extractLoop rest (acc ++ [c])
      else if acc ≠ [] then acc else extractLoop rest acc) = _
    by_cases hc : isNumB c
    · rw [if_pos hc, ih (acc ++ [c]) (by simp), List.takeWhile_cons, if_pos hc]
      simp
    · rw [if_neg hc, if_pos hacc, List.takeWhile_cons, if_neg hc, List.append_nil]

theorem extractLoop_nil_eq (w : List Nat) :
    extractLoop w [] = (w.dropWhile (fun b => !isNumB b)).takeWhile isNumB := by
  induction w with
  | nil => rfl
  | cons c rest ih =>
    show (if isNumB c then extractLoop rest ([] ++ [c])
      else if ([] : List Nat) ≠ [] then [] else extractLoop rest []) = _
    by_cases hc : isNumB c
    · rw [if_pos hc, List.nil_append, extractLoop_acc_ne_nil rest [c] (by simp),
        List.dropWhile_cons, if_neg (by simp [hc]), List.takeWhile_cons, if_pos hc]
      simp
    · rw [if_neg hc, if_neg (by simp), ih, List.dropWhile_cons, if_pos (by simp [hc])]

theorem mem_extractLoop (x : Nat) :
    ∀ (w acc : List Nat), x ∈ extractLoop w acc → x ∈ acc ∨ x ∈ w := by
  intro w
  induction w with
  | nil => intro acc hx; exact Or.inl hx
  | cons c rest ih =>
    intro acc hx
    simp only [extractLoop] at hx
    by_cases hc : isNumB c
    · rw [if_pos hc] at hx
      rcases ih (acc ++ [c]) hx with h1 | h2
      · rcases List.mem_append.mp h1 with h3 | h4
        · exact Or.inl h3
        · exact Or.inr (by simp at h4; simp [h4])
      · exact Or.inr (List.mem_cons_of_mem c h2)
    · rw [if_neg hc] at hx
      by_cases hacc : acc = []
      · subst hacc
        rw [if_neg (by simp)] at hx
        rcases ih [] hx with h1 | h2
        · exact Or.inl h1
        · exact Or.inr (List.mem_cons_of_mem c h2)
      · rw [if_pos hacc] at hx
        exact Or.inl hx

theorem dropWhile_append_of_all {P : Nat → Bool} :
    ∀ (A X : List Nat), (∀ b ∈ A, P b = true) →
      List.dropWhile P (A ++ X) = List.dropWhile P X := by
  intro A
  induction A with
  | nil => intro X _; rfl
  | cons a as ih =>
    intro X hall
    rw [List.cons_append, List.dropWhile_cons,
      if_pos (hall a (List.mem_cons_self a as))]
    exact ih X (fun b hb => hall b (List.mem_cons_of_mem a hb))

theorem takeWhile_append_of_all {P : Nat → Bool} :
    ∀ (A X : List Nat), (∀ b ∈ A, P b = true) →
      List.takeWhile P (A ++ X) = A ++ List.takeWhile P X := by
  intro A
  induction A with
  | nil => intro X _; rfl
  | cons a as ih =>
    intro X hall
    rw [List.cons_append, List.takeWhile_cons,
      if_pos (hall a (List.mem_cons_self a as)), ih X
      (fun b hb => hall b (List.mem_cons_of_mem a hb)), List.cons_append]

/-- `extract_float_after` only depends on the `maxLen` bytes starting at
`startPos`. -/
theorem extract_local (d1 : List Nat) (p1 : Nat) (d2 : List Nat) (p2 m : Nat)
    (h : (d1.drop p1).take m = (d2.drop p2).take m) :
    extract_float_after d1 p1 m = extract_float_after d2 p2 m := by
  simp only [extract_float_after]
  rw [h]

/-- If no digit occurs among the scanned bytes, `extract_float_after`
returns nothing (a dots-only run fails the parse). -/
theorem extract_none_of_no_digit (d : List Nat) (p m : Nat)
    (h : ∀ b ∈ (d.drop p).take m, isDigitB b = false) :
    extract_float_after d p m = none := by
  simp only [extract_float_after]
  rcases hrun : extractLoop ((d.drop p).take m) [] with _ | ⟨b, bs⟩
  · simp
  · rw [if_pos (by simp)]
    unfold parseFloatRun
    rw [if_neg]
    rintro ⟨hall, hdots, hany⟩
    obtain ⟨y, hy, hdig⟩ := List.any_eq_true.mp hany
    have hyloop : y ∈ extractLoop ((d.drop p).take m) [] := hrun ▸ hy
    rcases mem_extractLoop y _ [] hyloop with h1 | h2
    · exact absurd h1 (List.not_mem_nil y)
    · rw [h y h2] at hdig
      exact Bool.false_ne_true hdig

/-- If a valid numeric run starts after non-numeric garbage and both fit
within the scan bound, `extract_float_after` returns its value. -/
theorem extract_some_of_run (d : List Nat) (p m : Nat) (pre run post : List Nat)
    (hsplit : d.drop p = pre ++ run ++ post)
    (hpreAll : ∀ b ∈ pre, isNumB b = false)
    (hrunNe : run ≠ [])
    (hrunAll : ∀ b ∈ run, isNumB b = true)
    (hdots : run.count 46 ≤ 1)
    (hdigs : run.any isDigitB = true)
    (hlen : pre.length + run.length ≤ m)
    (hpost : post = [] ∨ ∃ b rest, post = b :: rest ∧ isNumB b = false) :
    extract_float_after d p m = some (ratOfRun run) := by
  simp only [extract_float_after]
  have hw : (d.drop p).take m =
      pre ++ run ++ post.take (m - (pre.length + run.length)) := by
    rw [hsplit, List.take_append_eq_append_take,
      List.take_of_length_le (by rw [List.length_append]; exact hlen),
      List.length_append]
  set post2 := post.take (m - (pre.length + run.length)) with hpost2
  have hpost2prop : post2 = [] ∨ ∃ b rest2, post2 = b :: rest2 ∧ isNumB b = false := by
    rcases hpost with h1 | ⟨b, rest, hb, hbn⟩
    · left; rw [hpost2, h1, List.take_nil]
    · rcases hk : m - (pre.length + run.length) with _ | k
      · left; rw [hpost2, hk, List.take_zero]
      · right
        exact ⟨b, rest.take k, by rw [hpost2, hb, hk, List.take_succ_cons], hbn⟩
  have hdw : List.dropWhile (fun b => !isNumB b) (run ++ post2) = run ++ post2 := by
    rcases hrc : run with _ | ⟨r0, rrest⟩
    · exact absurd hrc hrunNe
    · have hr0 : isNumB r0 = true :=
        hrunAll r0 (by rw [hrc]; exact List.mem_cons_self r0 rrest)
      rw [List.cons_append, List.dropWhile_cons, if_neg (by simp [hr0])]
  have hpt : List.takeWhile isNumB post2 = [] := by
    rcases hpost2prop with h1 | ⟨b, rest2, hb, hbn⟩
    · rw [h1]; rfl
    · rw [hb, List.takeWhile_cons, if_neg (by simp [hbn])]
  have htw : List.takeWhile isNumB (run ++ post2) = run := by
    rw [takeWhile_append_of_all run post2 hrunAll, hpt, List.append_nil]
  rw [hw, extractLoop_nil_eq, List.append_assoc,
    dropWhile_append_of_all (P := fun b => !isNumB b) pre (run ++ post2)
      (fun b hb => by simp [hpreAll b hb]),
    hdw, htw, if_pos hrunNe]
  unfold parseFloatRun
  rw [if_pos ⟨List.all_eq_true.mpr hrunAll, hdots, hdigs⟩]

/-- C6: `extract_float_after` never scans beyond `maxLen` bytes past the
start position: (i) its result is determined solely by the `maxLen` bytes
starting there; (ii) when no digit lies within the bound — in particular
when the first digit of a valid value lies strictly past it — it returns
nothing; (iii) a valid numeric run lying entirely within the bound is
returned. -/
theorem c6_extract_scan_bound :
    (∀ (d1 : List Nat) (p1 : Nat) (d2 : List Nat) (p2 m : Nat),
        (d1.drop p1).take m = (d2.drop p2).take m →
        extract_float_after d1 p1 m = extract_float_after d2 p2 m) ∧
    (∀ (d : List Nat) (p m : Nat),
        (∀ b ∈ (d.drop p).take m, isDigitB b = false) →
        extract_float_after d p m = none) ∧
    (∀ (d : List Nat) (p m : Nat) (pre run post : List Nat),
        d.drop p = pre ++ run ++ post →
        (∀ b ∈ pre, isNumB b = false) → run ≠ [] →
        (∀ b ∈ run, isNumB b = true) → run.count 46 ≤ 1 →
        run.any isDigitB = true → pre.length + run.length ≤ m →
        (post = [] ∨ ∃ b rest, post = b :: rest ∧ isNumB b = false) →
        extract_float_after d p m = some (ratOfRun run)) :=
  ⟨extract_local, extract_none_of_no_digit, extract_some_of_run⟩

/-- Witness for C6: with the default bound 20, a value whose first digit sits
at offset 20 is not seen, while a value within the bound is returned. -/
theorem c6_extract_scan_bound_witness :
    extract_float_after (asciiBytes "pppppppppppppppppppp125.5") 0 20 = none ∧
    extract_float_after (asciiBytes "xx125.5,") 0 20 = some (ratOfRun (asciiBytes "125.5")) :=
  ⟨c6_extract_scan_bound.2.1 _ 0 20 (by decide),
   c6_extract_scan_bound.2.2 _ 0 20 (asciiBytes "xx") (asciiBytes "125.5")
     (asciiBytes ",") (by decide) (by decide) (by decide) (by decide) (by decide)
     (by decide) (by decide) (Or.inr ⟨44, [], by decide, by decide⟩)⟩

/-- One update step of the naive running maximum: absorb an extraction
result (a missing value is skipped, a value replaces the maximum when
larger). -/
def maxStep (m : ℚ) (v : Option ℚ) : ℚ :=
  match v with
  | none => m
  | some t => if m < t then t else m

/-- Modelled from the spec (refinement counterpart of the one-occurrence
optimization; it also mirrors the per-occurrence loop of `new_isal.py`,
lines 180-187): parse the value after EVERY occurrence of the time marker
and take the global (running) maximum. -/
def naiveMaxTime (chunk : List Nat) (cur : ℚ) : ℚ :=
  (occPositions P_TIME chunk).foldl
    (fun m pos => maxStep m (extract_float_after chunk (pos + P_TIME.length) 20)) cur

/-- Value carried by the last element of a list of extraction results. -/
def lastVal : List (Option ℚ) → ℚ
  | [] => 0
  | [v] => v.getD 0
  | _ :: v2 :: rest => lastVal (v2 :: rest)

theorem chain_getD_le_lastVal :
    ∀ (rest : List (Option ℚ)) (v : Option ℚ),
      List.Chain' (fun a b : Option ℚ => a.getD 0 ≤ b.getD 0) (v :: rest) →
      v.getD 0 ≤ lastVal (v :: rest) := by
  intro rest
  induction rest with
  | nil => intro v _; exact le_refl _
  | cons v2 rest ih =>
    intro v hchain
    obtain ⟨hvv2, hchain2⟩ := List.chain'_cons.mp hchain
    exact le_trans hvv2 (ih v2 hchain2)

theorem maxStep_if_absorb (c tv L : ℚ) (h : tv ≤ L) :
    (if (if c < tv then tv else c) < L then L else (if c < tv then tv else c)) =
      if c < L then L else c := by
  split_ifs <;> linarith

theorem foldl_maxStep_chain :
    ∀ (rest : List (Option ℚ)) (v : Option ℚ) (c : ℚ),
      (∀ u ∈ v :: rest, u.isSome) →
      List.Chain' (fun a b : Option ℚ => a.getD 0 ≤ b.getD 0) (v :: rest) →
      (v :: rest).foldl maxStep c =
        (if c < lastVal (v :: rest) then lastVal (v :: rest) else c) := by
  intro rest
  induction rest with
  | nil =>
    intro v c hsome _
    obtain ⟨t, ht⟩ := Option.isSome_iff_exists.mp (hsome v (List.mem_cons_self v []))
    subst ht
    rfl
  | cons v2 rest ih =>
    intro v c hsome hchain
    obtain ⟨hvv2, hchain2⟩ := List.chain'_cons.mp hchain
    obtain ⟨tv, htv⟩ := Option.isSome_iff_exists.mp
      (hsome v (List.mem_cons_self v (v2 :: rest)))
    rw [List.foldl_cons,
      ih v2 (maxStep c v) (fun u hu => hsome u (List.mem_cons_of_mem v hu)) hchain2]
    have hle : tv ≤ lastVal (v2 :: rest) := by
      have h0 := chain_getD_le_lastVal (v2 :: rest) v hchain
      rw [htv] at h0
      exact h0
    have hlv : lastVal (v :: v2 :: rest) = lastVal (v2 :: rest) := rfl
    rw [hlv, htv]
    exact maxStep_if_absorb c tv _ hle

theorem lastVal_map_eq (f : Nat → Option ℚ) :
    ∀ (ps : List Nat) (pk : Nat), ps.getLast? = some pk →
      lastVal (ps.map f) = (f pk).getD 0 := by
  intro ps
  induction ps with
  | nil => intro pk h; cases h
  | cons p rest ih =>
    intro pk h
    cases rest with
    | nil =>
      have hpk : p = pk := by simpa using h
      subst hpk
      rfl
    | cons q rest2 =>
      have h2 : (q :: rest2).getLast? = some pk := by
        rw [List.getLast?_cons_cons] at h
        exact h
      show lastVal (f q :: rest2.map f) = (f pk).getD 0
      exact ih pk h2

theorem foldl_maxStep_map (f : Nat → Option ℚ) :
    ∀ (ps : List Nat) (c : ℚ), ps ≠ [] →
      (∀ u ∈ ps.map f, u.isSome) →
      List.Chain' (fun a b : Option ℚ => a.getD 0 ≤ b.getD 0) (ps.map f) →
      ps.foldl (fun m pos => maxStep m (f pos)) c =
        if c < lastVal (ps.map f) then lastVal (ps.map f) else c := by
  intro ps
  induction ps with
  | nil => intro c h; exact absurd rfl h
  | cons p rest ih =>
    intro c _ hsome hchain
    cases rest with
    | nil =>
      obtain ⟨t, ht⟩ := Option.isSome_iff_exists.mp
        (hsome (f p) (by simp))
      rw [List.foldl_cons, List.foldl_nil]
      show maxStep c (f p) = if c < (f p).getD 0 then (f p).getD 0 else c
      rw [ht]
      rfl
    | cons q rest2 =>
      have hsome2 : ∀ u ∈ (q :: rest2).map f, u.isSome :=
        fun u hu => hsome u (by rw [List.map_cons]; exact List.mem_cons_of_mem _ hu)
      have hchaincc : List.Chain' (fun a b : Option ℚ => a.getD 0 ≤ b.getD 0)
          (f p :: f q :: rest2.map f) := hchain
      have hchain2 : List.Chain' (fun a b : Option ℚ => a.getD 0 ≤ b.getD 0)
          ((q :: rest2).map f) := (List.chain'_cons.mp hchaincc).2
      obtain ⟨tp, htp⟩ := Option.isSome_iff_exists.mp (hsome (f p) (by simp))
      have hle : tp ≤ lastVal ((q :: rest2).map f) := by
        have h0 := chain_getD_le_lastVal ((q :: rest2).map f) (f p) hchain
        rw [htp] at h0
        exact h0
      rw [List.foldl_cons, ih (maxStep c (f p)) (by simp) hsome2 hchain2]
      have hlv : lastVal ((p :: q :: rest2).map f) = lastVal ((q :: rest2).map f) := rfl
      rw [hlv]
      have hms : maxStep c (f p) = if c < tp then tp else c := by rw [htp]; rfl
      rw [hms]
      exact maxStep_if_absorb c tp _ hle

/-- C3: on every record in which each occurrence of the time marker is
followed by an extractable numeric value and those values are non-decreasing
in order of occurrence, the optimized extraction (last occurrence only, via
rfind) yields the same max_time as the naive extraction that parses every
occurrence and takes the global maximum — and hence the same
duration_sec/duration_min outputs. -/
theorem c3_last_time_equals_global_max (chunk : List Nat)
    (hsome : ∀ v ∈ (occPositions P_TIME chunk).map
        (fun pos => extract_float_after chunk (pos + P_TIME.length) 20), v.isSome)
    (hmono : List.Chain' (fun a b : Option ℚ => a.getD 0 ≤ b.getD 0)
        ((occPositions P_TIME chunk).map
          (fun pos => extract_float_after chunk (pos + P_TIME.length) 20))) :
    updateMaxTimeOpt chunk 0 = naiveMaxTime chunk 0 ∧
    qround (updateMaxTimeOpt chunk 0) 1 = qround (naiveMaxTime chunk 0) 1 ∧
    qround (updateMaxTimeOpt chunk 0 / 60) 2 = qround (naiveMaxTime chunk 0 / 60) 2 := by
  have hmain : updateMaxTimeOpt chunk 0 = naiveMaxTime chunk 0 := by
    rcases hps : occPositions P_TIME chunk with _ | ⟨p0, prest⟩
    · unfold updateMaxTimeOpt naiveMaxTime rfindSeq
      rw [hps]
      rfl
    · have hne : p0 :: prest ≠ ([] : List Nat) := by simp
      have hlast : (p0 :: prest).getLast? =
          some ((p0 :: prest).getLast hne) := List.getLast?_eq_getLast _ hne
      set pk := (p0 :: prest).getLast hne with hpk
      rw [hps] at hsome hmono
      have hrf : rfindSeq P_TIME chunk = some pk := by
        unfold rfindSeq
        rw [hps]
        exact hlast
      obtain ⟨tk, htk⟩ := Option.isSome_iff_exists.mp
        (hsome _ (List.mem_map_of_mem _ (List.getLast_mem hne)))
      have htk2 : extract_float_after chunk (pk + P_TIME.length) 20 = some tk := htk
      have hopt : updateMaxTimeOpt chunk 0 = if tk ≠ 0 ∧ 0 < tk then tk else 0 := by
        unfold updateMaxTimeOpt
        rw [hrf]
        show (match extract_float_after chunk (pk + P_TIME.length) 20 with
          | none => (0 : ℚ)
          | some t => if t ≠ 0 ∧ 0 < t then t else 0) =
            if tk ≠ 0 ∧ 0 < tk then tk else 0
        rw [htk2]
      have hlv : lastVal ((p0 :: prest).map
          (fun pos => extract_float_after chunk (pos + P_TIME.length) 20)) = tk := by
        rw [lastVal_map_eq _ (p0 :: prest) pk hlast, htk2]
        rfl
      have hnaive : naiveMaxTime chunk 0 = if (0 : ℚ) < tk then tk else 0 := by
        unfold naiveMaxTime
        rw [hps, foldl_maxStep_map _ (p0 :: prest) 0 hne hsome hmono, hlv]
      rw [hopt, hnaive]
      by_cases h : (0 : ℚ) < tk
      · rw [if_pos ⟨ne_of_gt h, h⟩, if_pos h]
      · rw [if_neg (fun hc => h hc.2), if_neg h]
  exact ⟨hmain, by rw [hmain], by rw [hmain]⟩

/-- Witness for C3 at a concrete record with two increasing time values. -/
theorem c3_last_time_equals_global_max_witness :
    updateMaxTimeOpt (asciiBytes "\"time\":1.5 \"time\":2.5") 0 =
      naiveMaxTime (asciiBytes "\"time\":1.5 \"time\":2.5") 0 ∧
    qround (updateMaxTimeOpt (asciiBytes "\"time\":1.5 \"time\":2.5") 0) 1 =
      qround (naiveMaxTime (asciiBytes "\"time\":1.5 \"time\":2.5") 0) 1 ∧
    qround (updateMaxTimeOpt (asciiBytes "\"time\":1.5 \"time\":2.5") 0 / 60) 2 =
      qround (naiveMaxTime (asciiBytes "\"time\":1.5 \"time\":2.5") 0 / 60) 2 :=
  c3_last_time_equals_global_max (asciiBytes "\"time\":1.5 \"time\":2.5")
    (by decide)
    (by
      rw [show (occPositions P_TIME (asciiBytes "\"time\":1.5 \"time\":2.5")).map
          (fun pos => extract_float_after (asciiBytes "\"time\":1.5 \"time\":2.5")
            (pos + P_TIME.length) 20) =
          [some ((3 : ℚ) / 2), some ((5 : ℚ) / 2)] from by decide]
      exact List.chain'_cons.mpr ⟨by decide, List.chain'_singleton _⟩)

theorem champPartUpdate_no_quote (champs : List (List Nat)) (p : List Nat)
    (h : p.findIdx? (fun b => b == 34) = none) :
    champPartUpdate champs p = champs := by
  unfold champPartUpdate
  rw [h]

theorem champPartUpdate_eq_of_quote (champs : List (List Nat)) (p : List Nat)
    (e : Nat) (h : p.findIdx? (fun b => b == 34) = some e) :
    champPartUpdate champs p =
      if 0 < e ∧ e < 30 then
        (match utf8DecodeOpt (p.take e) with
          | some name => setAdd champs name
          | none => champs)
      else champs := by
  unfold champPartUpdate
  rw [h]

/-- C7: a champion-marker occurrence whose closing quote is not found, or
whose quoted run reaches the ~30-byte sanity cap, yields no value: the
champion set is left unchanged by that occurrence, and no error arises (the
update is a total function). -/
theorem c7_quote_miss_leaves_set (p : List Nat) (champs : List (List Nat))
    (h : p.findIdx? (fun b => b == 34) = none ∨
         ∃ e, p.findIdx? (fun b => b == 34) = some e ∧ 30 ≤ e) :
    champPartUpdate champs p = champs := by
  rcases h with h1 | ⟨e, he, hcap⟩
  · exact champPartUpdate_no_quote champs p h1
  · rw [champPartUpdate_eq_of_quote champs p e he, if_neg]
    rintro ⟨_, h30⟩
    omega

/-- Witness for C7: a piece with no closing quote leaves the set unchanged. -/
theorem c7_quote_miss_leaves_set_witness :
    champPartUpdate [] (asciiBytes "AhriNoQuote") = [] :=
  c7_quote_miss_leaves_set (asciiBytes "AhriNoQuote") [] (Or.inl (by decide))

theorem champPartUpdate_preserves (champs : List (List Nat)) (p : List Nat)
    (hinv : ∀ nm ∈ champs, 1 ≤ nm.length ∧ nm.length ≤ 29) :
    ∀ nm ∈ champPartUpdate champs p, 1 ≤ nm.length ∧ nm.length ≤ 29 := by
  intro nm hnm
  rcases hidx : p.findIdx? (fun b => b == 34) with _ | e
  · rw [champPartUpdate_no_quote champs p hidx] at hnm
    exact hinv nm hnm
  · rw [champPartUpdate_eq_of_quote champs p e hidx] at hnm
    by_cases hcond : 0 < e ∧ e < 30
    · rw [if_pos hcond] at hnm
      unfold utf8DecodeOpt at hnm
      by_cases hv : validUtf8 (p.take e)
      · rw [if_pos hv] at hnm
        have hnm2 : nm ∈ (if p.take e ∈ champs then champs else champs ++ [p.take e]) :=
          hnm
        by_cases hmem : p.take e ∈ champs
        · rw [if_pos hmem] at hnm2
          exact hinv nm hnm2
        · rw [if_neg hmem] at hnm2
          rcases List.mem_append.mp hnm2 with h1 | h2
          · exact hinv nm h1
          · have hnmeq : nm = p.take e := by simpa using h2
            subst hnmeq
            obtain ⟨helen, _⟩ := List.findIdx?_eq_some_iff_findIdx_eq.mp hidx
            constructor
            · rw [List.length_take]
              omega
            · rw [List.length_take]
              omega
      · rw [if_neg hv] at hnm
        exact hinv nm hnm
    · rw [if_neg hcond] at hnm
      exact hinv nm hnm

theorem foldl_champPartUpdate_preserves :
    ∀ (parts : List (List Nat)) (champs : List (List Nat)),
      (∀ nm ∈ champs, 1 ≤ nm.length ∧ nm.length ≤ 29) →
      ∀ nm ∈ parts.foldl champPartUpdate champs, 1 ≤ nm.length ∧ nm.length ≤ 29 := by
  intro parts
  induction parts with
  | nil => intro champs hinv; exact hinv
  | cons p parts ih =>
    intro champs hinv
    rw [List.foldl_cons]
    exact ih (champPartUpdate champs p) (champPartUpdate_preserves champs p hinv)

/-- C10: every champion name ever added to the set has byte length between 1
and 29 — in particular an occurrence of the champion marker immediately
followed by a closing quote (the empty string) contributes nothing — so
every name in the set underlying the serialized champs column and n_champs
obeys the bound. -/
theorem c10_champ_names_bounded :
    (∀ (rest : List Nat) (champs : List (List Nat)),
        champPartUpdate champs (34 :: rest) = champs) ∧
    (∀ (chunk : List Nat) (champs : List (List Nat)),
        (∀ nm ∈ champs, 1 ≤ nm.length ∧ nm.length ≤ 29) →
        ∀ nm ∈ champScan chunk champs, 1 ≤ nm.length ∧ nm.length ≤ 29) := by
  constructor
  · intro rest champs
    have hidx : (34 :: rest).findIdx? (fun b => b == 34) = some 0 := by
      simp [List.findIdx?_cons]
    rw [champPartUpdate_eq_of_quote champs (34 :: rest) 0 hidx, if_neg]
    rintro ⟨h0, _⟩
    omega
  · intro chunk champs hinv nm hnm
    unfold champScan at hnm
    by_cases hc : containsSeq P_CHAMP_PRE chunk
    · rw [if_pos hc] at hnm
      exact foldl_champPartUpdate_preserves _ champs hinv nm hnm
    · rw [if_neg hc] at hnm
      exact hinv nm hnm

/-- Witness for C10 at a concrete record adding the name "Ahri". -/
theorem c10_champ_names_bounded_witness :
    1 ≤ (asciiBytes "Ahri").length ∧ (asciiBytes "Ahri").length ≤ 29 :=
  c10_champ_names_bounded.2 (asciiBytes "\"champion\":\"Ahri\" x") []
    (by decide) (asciiBytes "Ahri") (by decide)

/-- C2 counterexample: a file whose stream yields one complete record and
then fails.  The record "a" was fully processed and its row emitted before
the failure, yet the file-level result carries NO rows (first component
`none`): the already-emitted rows are discarded, not returned to the
caller.  The error string does carry the file identity and cause. -/
theorem c2_rows_discarded_on_error :
    (process_file_per_game (asciiBytes "d/f.gz")
        [ReadEv.chunk (asciiBytes "a\n"), ReadEv.ioError (asciiBytes "boom")]).1 =
      none ∧
    (process_file_per_game (asciiBytes "d/f.gz")
        [ReadEv.chunk (asciiBytes "a\n"), ReadEv.ioError (asciiBytes "boom")]).2 =
      some (errFmt (asciiBytes "f.gz") (asciiBytes "boom")) ∧
    processedRecords [asciiBytes "a\n"] ≠ [] := by
  exact ⟨by decide, by decide, by decide⟩

/-- C2 amended: on any decompression or I/O failure mid-file, processing of
that file stops (later reads are never consulted) and the result is a
FileError string carrying the file identity and the cause — but every row
already produced for the file is DISCARDED: the caller receives no rows for
a failed file (all-or-error, not a partial-result policy). -/
theorem c2_error_aborts_file (filename patch e : List Nat) (post : List ReadEv) :
    ∀ (pre : List ReadEv) (gi : Nat) (buffer : List Nat) (rows : List OutputRow),
      (∀ r ∈ pre, ∃ bs, r = ReadEv.chunk bs ∧ bs ≠ []) →
      processReads filename patch gi buffer rows (pre ++ ReadEv.ioError e :: post) =
        (none, some (errFmt filename e)) := by
  intro pre
  induction pre with
  | nil => intro gi buffer rows _; rfl
  | cons r pre ih =>
    intro gi buffer rows hpre
    obtain ⟨bs, hr, hbs⟩ := hpre r (List.mem_cons_self r pre)
    subst hr
    cases bs with
    | nil => exact absurd rfl hbs
    | cons b bs2 =>
      exact ih _ _ _ (fun r2 hr2 => hpre r2 (List.mem_cons_of_mem _ hr2))

/-- Witness for the amended C2 at a concrete failing stream. -/
theorem c2_error_aborts_file_witness :
    processReads (asciiBytes "f.gz") (asciiBytes "unknown") 0 [] []
        ([ReadEv.chunk (asciiBytes "a\n")] ++
          ReadEv.ioError (asciiBytes "boom") :: []) =
      (none, some (errFmt (asciiBytes "f.gz") (asciiBytes "boom"))) :=
  c2_error_aborts_file (asciiBytes "f.gz") (asciiBytes "unknown") (asciiBytes "boom")
    [] [ReadEv.chunk (asciiBytes "a\n")] 0 [] []
    (fun r hr => by
      have hreq : r = ReadEv.chunk (asciiBytes "a\n") := by simpa using hr
      exact ⟨asciiBytes "a\n", hreq, by decide⟩)

/-- Modelled from the spec's words: a path segment matching the
"<NN>_<NN>"-like naming convention — two decimal digits, an underscore,
two decimal digits (e.g. "12_22"). -/
def specPatchSegment (seg : List Nat) : Bool :=
  match seg with
  | [a, b, u, c, d] => isDigitB a && isDigitB b && (u == 95) && isDigitB c && isDigitB d
  | _ => false

/-- C9 counterexample: for the path "D:/data/15_01/a.jsonl.gz" the segment
"15_01" matches the "<NN>_<NN>" convention, yet the code derives patch
"unknown" because it only recognizes the literal prefixes "12_", "13_",
"14_". -/
theorem c9_patch_counterexample :
    patchOf (asciiBytes "D:/data/15_01/a.jsonl.gz") = asciiBytes "unknown" ∧
    (pathSegs (asciiBytes "D:/data/15_01/a.jsonl.gz")).find? specPatchSegment =
      some (asciiBytes "15_01") ∧
    asciiBytes "unknown" ≠ asciiBytes "15_01" := by
  exact ⟨by decide, by decide, by decide⟩

theorem patchLoop_eq_find (segs : List (List Nat)) :
    patchLoop segs = ((segs.find? isPatchPre).getD (asciiBytes "unknown")) := by
  induction segs with
  | nil => rfl
  | cons p ps ih =>
    show (if isPatchPre p then p else patchLoop ps) = _
    by_cases hp : isPatchPre p
    · rw [if_pos hp, List.find?_cons_of_pos _ hp]
      rfl
    · rw [if_neg hp, List.find?_cons_of_neg _ (by simp [hp]), ih]

theorem foldl_processLine_patch (filename patch : List Nat) :
    ∀ (lines : List (List Nat)) (st : Nat × List OutputRow),
      (∀ r ∈ st.2, r.patch = patch) →
      ∀ r ∈ (lines.foldl (processLine filename patch) st).2, r.patch = patch := by
  intro lines
  induction lines with
  | nil => intro st hst; exact hst
  | cons l lines ih =>
    intro st hst
    rw [List.foldl_cons]
    refine ih (processLine filename patch st l) ?_
    intro r hr
    unfold processLine at hr
    by_cases hl : pyStrip l = []
    · rw [if_pos hl] at hr
      exact hst r hr
    · rw [if_neg hl] at hr
      rcases List.mem_append.mp hr with h1 | h2
      · exact hst r h1
      · have : r = finalize_stats (process_game_chunk l new_game_stats)
            filename patch st.1 := by simpa using h2
        rw [this]
        rfl

theorem processReads_patch (filename patch : List Nat) :
    ∀ (reads : List ReadEv) (gi : Nat) (buffer : List Nat) (rows : List OutputRow),
      (∀ r ∈ rows, r.patch = patch) →
      ∀ row ∈ (processReads filename patch gi buffer rows reads).1.getD [],
        row.patch = patch := by
  intro reads
  induction reads with
  | nil =>
    intro gi buffer rows hrows row hrow
    unfold processReads at hrow
    by_cases hb : pyStrip buffer = []
    · rw [if_pos hb] at hrow
      exact hrows row hrow
    · rw [if_neg hb] at hrow
      rcases List.mem_append.mp hrow with h1 | h2
      · exact hrows row h1
      · have : row = finalize_stats (process_game_chunk buffer new_game_stats)
            filename patch gi := by simpa using h2
        rw [this]
        rfl
  | cons r rest ih =>
    intro gi buffer rows hrows row hrow
    cases r with
    | chunk bs =>
      cases bs with
      | nil =>
        unfold processReads at hrow
        by_cases hb : pyStrip buffer = []
        · rw [if_pos hb] at hrow
          exact hrows row hrow
        · rw [if_neg hb] at hrow
          rcases List.mem_append.mp hrow with h1 | h2
          · exact hrows row h1
          · have : row = finalize_stats (process_game_chunk buffer new_game_stats)
                filename patch gi := by simpa using h2
            rw [this]
            rfl
      | cons b bs2 =>
        exact ih _ _ _
          (foldl_processLine_patch filename patch (feedStep buffer (b :: bs2)).1
            (gi, rows) hrows) row hrow
    | ioError msg =>
      exact absurd hrow (List.not_mem_nil row)

/-- C9 amended: the patch field is the FIRST path segment starting with one
of the literal prefixes "12_", "13_", "14_" — "unknown" when no segment
does — and every OutputRow produced for a file carries exactly that label.
General "<NN>_<NN>" segments of other patch families (e.g. "15_01") are not
recognized. -/
theorem c9_patch_prefix :
    (∀ path : List Nat,
        patchOf path = ((pathSegs path).find? isPatchPre).getD (asciiBytes "unknown")) ∧
    (∀ (path : List Nat) (reads : List ReadEv),
        ∀ row ∈ (process_file_per_game path reads).1.getD [],
          row.patch = patchOf path) :=
  ⟨fun path => patchLoop_eq_find (pathSegs path),
   fun path reads =>
    processReads_patch (basenameOf path) (patchOf path) reads 0 [] []
      (fun r hr => absurd hr (List.not_mem_nil r))⟩

/-- Witness for the amended C9 at a concrete path and stream. -/
theorem c9_patch_prefix_witness :
    (finalize_stats (process_game_chunk (asciiBytes "x") new_game_stats)
        (asciiBytes "f.gz") (asciiBytes "12_22") 0).patch =
      patchOf (asciiBytes "d/12_22/f.gz") :=
  c9_patch_prefix.2 (asciiBytes "d/12_22/f.gz") [ReadEv.chunk (asciiBytes "x\n")]
    (finalize_stats (process_game_chunk (asciiBytes "x") new_game_stats)
      (asciiBytes "f.gz") (asciiBytes "12_22") 0) (by decide)
